import Mathlib

/-!
Shallow embedding of `src/smooth_filter_openmp.c`: a BMP box-blur filter.

The program has four parts, embedded below in source order:
* header accessors `getWidth` / `getHeight` (lines 16-28);
* the BMP codec `readBmp` / `writeBmp` (lines 49-109), modelled over a file
  as a byte list (`List Nat`, each entry one byte read by `fread`);
* the smoothing kernel `processImageSmoothFilter` (lines 111-143), modelled
  both as a direct per-position function and as the sequential fold of the
  per-pixel destination writes the loop nest performs;
* the driver `main` (lines 145-193), modelled as `mainRun`.

Memory buffers are modelled as total functions `Nat → RgbPixel` (a buffer
sitting in an unbounded memory); the C `unsigned int` accumulators are `Nat`
reduced `% 2^32`. The `float` rounding expression `ROUND` exists in two
forms: `ROUNDF`/`smoothPixelF` model the single-precision IEEE-754
pipeline bit-faithfully (via `fl32`, round to nearest, ties to even),
while `ROUND`/`smoothPixel` idealize the rounding to exact rational
arithmetic; `ROUNDF_natDiv` proves the two agree whenever the window
pixel count is below `2^16`, and `smooth_tie_float_counterexample`
exhibits their divergence on a larger window.
-/

namespace SmoothC

/-- `struct RgbPixel` (lines 30-35): three `unsigned char` channels in
declaration order blue, green, red. Channel values of real buffers are
bytes (`< 256`); the model uses `Nat` and states that invariant where a
theorem needs it. -/
@[ext]
structure RgbPixel where
  b : Nat
  g : Nat
  r : Nat
deriving DecidableEq, Repr

/-- A buffer (or whole memory) of pixels is valid below `n` when every
channel of every pixel at a position `< n` is a byte value. -/
def ValidBuf (bmp : Nat → RgbPixel) (n : Nat) : Prop :=
  ∀ pos, pos < n → (bmp pos).b < 256 ∧ (bmp pos).g < 256 ∧ (bmp pos).r < 256

/-- Modulus of the C `unsigned int` accumulators `r`, `g`, `b` (line 119). -/
def UINT_MOD : Nat := 2 ^ 32

/-- `#define ROUND(x) (unsigned char)((x) + 0.5)` (line 113), applied to
`(float)sum / count` (lines 138-140), with the rounding IDEALIZED to exact
rational arithmetic: the cast to `unsigned char` truncates the nonnegative
value toward zero, i.e. takes the floor of `x + 1/2`. The program's actual
single-precision pipeline is modelled bit-faithfully by `ROUNDF` below;
the two agree exactly when the window pixel count is below `2^16`
(`ROUNDF_natDiv`), and can differ by one on larger windows
(`smooth_tie_float_counterexample`). -/
def ROUND (x : ℚ) : ℕ := (⌊x + 1 / 2⌋).toNat

/-- Round half to even on rationals: the IEEE-754 default tie-breaking
rule, used by `fl32` for significand rounding. -/
def rhe (q : ℚ) : ℤ :=
  if q - ⌊q⌋ < 1 / 2 then ⌊q⌋
  else if 1 / 2 < q - ⌊q⌋ then ⌊q⌋ + 1
  else if ⌊q⌋ % 2 = 0 then ⌊q⌋ else ⌊q⌋ + 1

/-- Round a positive rational to the nearest IEEE-754 `float` value: a
24-bit significand at the value's binary magnitude, round to nearest with
ties to even (exponent range unbounded — all values this program produces
are normal, far from overflow and underflow). `fl32 q` is exactly the real
number the hardware stores for the exact result `q` of a `float`
conversion, division, or other correctly rounded operation. -/
def fl32 (q : ℚ) : ℚ :=
  if q ≤ 0 then 0
  else
    (rhe (q * (2 : ℚ) ^ ((23 : ℤ) - Int.log 2 q)) : ℚ) *
      (2 : ℚ) ^ (Int.log 2 q - 23)

/-- The exact value of `ROUND((float)sum / count)` (lines 113, 138-140)
under single-precision semantics: the `unsigned int` sum and the `size_t`
count are each converted to `float` (rounding to nearest), the division is
the correctly rounded `float` division, the `+ 0.5` happens after
promotion to `double` (exact at these magnitudes), and the
`(unsigned char)` cast truncates the nonnegative result toward zero. -/
def ROUNDF (s c : ℕ) : ℕ :=
  (⌊fl32 (fl32 (s : ℚ) / fl32 (c : ℚ)) + 1 / 2⌋).toNat

/-- `starti = i < radius ? 0 : i - radius` (line 122). The same expression
computes `startj` from `j` (line 124). -/
def startIdx (radius i : ℕ) : ℕ :=
  if i < radius then 0 else i - radius

/-- `endi = i + radius >= height ? height - 1 : i + radius` (line 123). The
same expression computes `endj` from `width` and `j` (line 125). -/
def endIdx (limit radius i : ℕ) : ℕ :=
  if limit ≤ i + radius then limit - 1 else i + radius

/-- The mathematical (unwrapped) sum accumulated by the loop at lines
128-135: channel `chan` summed over the window rows `[starti, endi]` and
columns `[startj, endj]`. -/
def rawSumChan (chan : RgbPixel → ℕ) (bmp : ℕ → RgbPixel)
    (width height radius i j : ℕ) : ℕ :=
  ∑ ii ∈ Finset.Icc (startIdx radius i) (endIdx height radius i),
    ∑ jj ∈ Finset.Icc (startIdx radius j) (endIdx width radius j),
      chan (bmp (ii * width + jj))

/-- One channel's accumulator loop (lines 128-135): the `unsigned int` sum
of channel `chan` over the window, wrapping modulo `2^32` as the C type
does (wrapping each `+=` is the same as wrapping the total once). -/
def sumChan (chan : RgbPixel → ℕ) (bmp : ℕ → RgbPixel)
    (width height radius i j : ℕ) : ℕ :=
  rawSumChan chan bmp width height radius i j % UINT_MOD

/-- `count = (endi - starti + 1) * (endj - startj + 1)` (line 127). -/
def windowCount (width height radius i j : ℕ) : ℕ :=
  (endIdx height radius i - startIdx radius i + 1) *
    (endIdx width radius j - startIdx radius j + 1)

/-- Body of the loop nest for one output pixel (lines 119-140): each channel
is `ROUND((float)sum / count)`, here with the rounding idealized to exact
rational arithmetic (see `ROUND`); `smoothPixelF` is the bit-faithful
single-precision version, and the two coincide for window counts below
`2^16` (`ROUNDF_natDiv`). -/
def smoothPixel (bmp : ℕ → RgbPixel) (width height radius i j : ℕ) : RgbPixel :=
  let count := windowCount width height radius i j
  { b := ROUND ((sumChan RgbPixel.b bmp width height radius i j : ℚ) / count)
    g := ROUND ((sumChan RgbPixel.g bmp width height radius i j : ℚ) / count)
    r := ROUND ((sumChan RgbPixel.r bmp width height radius i j : ℚ) / count) }

/-- Body of the loop nest for one output pixel (lines 119-140) with the
program's actual single-precision rounding: each channel is
`ROUNDF(sum, count)`. -/
def smoothPixelF (bmp : ℕ → RgbPixel) (width height radius i j : ℕ) : RgbPixel :=
  { b := ROUNDF (sumChan RgbPixel.b bmp width height radius i j)
      (windowCount width height radius i j)
    g := ROUNDF (sumChan RgbPixel.g bmp width height radius i j)
      (windowCount width height radius i j)
    r := ROUNDF (sumChan RgbPixel.r bmp width height radius i j)
      (windowCount width height radius i j) }

/-- `processImageSmoothFilter` (lines 111-143) as a function on the
destination memory: position `i * width + j` with `i < height`, `j < width`
(equivalently, any position `< height * width`) receives the smoothed pixel
for row `i = pos / width`, column `j = pos % width`; every other position
keeps the destination's previous contents. -/
def processImageSmoothFilter (bmp : ℕ → RgbPixel) (width height radius : ℕ)
    (result : ℕ → RgbPixel) : ℕ → RgbPixel :=
  fun pos =>
    if pos < height * width then
      smoothPixel bmp width height radius (pos / width) (pos % width)
    else result pos

/-- `processImageSmoothFilter` (lines 111-143) with the program's actual
single-precision rounding (`smoothPixelF` per position). -/
def processImageSmoothFilterF (bmp : ℕ → RgbPixel) (width height radius : ℕ)
    (result : ℕ → RgbPixel) : ℕ → RgbPixel :=
  fun pos =>
    if pos < height * width then
      smoothPixelF bmp width height radius (pos / width) (pos % width)
    else result pos

/-- Row-major iteration order of the loop nest (lines 116-117): all pairs
`(i, j)` with `i < height`, `j < width`, rows outermost. -/
def writeIndices (width height : ℕ) : List (ℕ × ℕ) :=
  (List.range height).flatMap fun i => (List.range width).map fun j => (i, j)

/-- The loop nest as the sequence of destination writes it performs: for
each visited `(i, j)`, store the smoothed pixel at
`resultPosition = i * width + j` (lines 137-140). -/
def runWrites (bmp : ℕ → RgbPixel) (width height radius : ℕ)
    (l : List (ℕ × ℕ)) (result : ℕ → RgbPixel) : ℕ → RgbPixel :=
  l.foldl
    (fun res p =>
      Function.update res (p.1 * width + p.2)
        (smoothPixel bmp width height radius p.1 p.2))
    result

/-! ### Bitmap codec (lines 9-14, 16-28, 49-109)

A file is the list of its bytes (`fread`/`fwrite` move one byte per
element); opening the file always succeeds in the model (the
cannot-open path, lines 58-59 and 94-98, depends on the environment, not
on the file's contents). -/

/-- `const size_t BMP_HEADER_SIZE = 54` (line 9). -/
def BMP_HEADER_SIZE : ℕ := 54

/-- `const size_t BMP_HEADER_WIDTH_OFFSET = 18` (line 11). -/
def BMP_HEADER_WIDTH_OFFSET : ℕ := 18

/-- `const size_t BMP_HEADER_HEIGHT_OFFSET = 22` (line 12). -/
def BMP_HEADER_HEIGHT_OFFSET : ℕ := 22

/-- `const size_t PIXEL_REAL_SIZE = 3` (line 14). -/
def PIXEL_REAL_SIZE : ℕ := 3

/-- `getWidth` (lines 16-21): the `unsigned int` at byte offset 18 of the
header, assembled little-endian as on the program's x86 target. -/
def getWidth (header : List ℕ) : ℕ :=
  header.getD BMP_HEADER_WIDTH_OFFSET 0 +
    256 * header.getD (BMP_HEADER_WIDTH_OFFSET + 1) 0 +
    256 ^ 2 * header.getD (BMP_HEADER_WIDTH_OFFSET + 2) 0 +
    256 ^ 3 * header.getD (BMP_HEADER_WIDTH_OFFSET + 3) 0

/-- `getHeight` (lines 23-28): the `unsigned int` at byte offset 22. -/
def getHeight (header : List ℕ) : ℕ :=
  header.getD BMP_HEADER_HEIGHT_OFFSET 0 +
    256 * header.getD (BMP_HEADER_HEIGHT_OFFSET + 1) 0 +
    256 ^ 2 * header.getD (BMP_HEADER_HEIGHT_OFFSET + 2) 0 +
    256 ^ 3 * header.getD (BMP_HEADER_HEIGHT_OFFSET + 3) 0

/-- The pixel-reading loop (lines 72-81): each `fread` of `PIXEL_REAL_SIZE`
bytes fills one `RgbPixel` in field order `b`, `g`, `r`. -/
def pixelsOfBytes : List ℕ → List RgbPixel
  | b :: g :: r :: rest => ⟨b, g, r⟩ :: pixelsOfBytes rest
  | _ => []

/-- The pixel-writing loop (lines 104-105): each `fwrite` of
`PIXEL_REAL_SIZE` bytes emits one `RgbPixel` in field order `b`, `g`, `r`. -/
def bytesOfPixels : List RgbPixel → List ℕ
  | [] => []
  | p :: rest => p.b :: p.g :: p.r :: bytesOfPixels rest

/-- Result of `readBmp`: the returned `bool`, the bytes read into the
caller's `header` array, and the state of the caller's `*bmp` pointer when
the call returns (`none` = null / nothing allocated). -/
structure ReadResult where
  ok : Bool
  header : List ℕ
  bmp : Option (List RgbPixel)
deriving DecidableEq, Repr

/-- `readBmp` (lines 49-85) on a file `file`, with `bmp0` the caller's
`*bmp` value on entry (`main` passes null). A short header read (fewer
than 54 bytes available) returns `false` with `*bmp` untouched (lines
61-66); a short pixel read frees the partially filled buffer, nulls `*bmp`
via `deallocateMemory`, and returns `false` (lines 74-80); otherwise the
`width * height` pixels are returned (line 84). -/
def readBmp (file : List ℕ) (bmp0 : Option (List RgbPixel)) : ReadResult :=
  if BMP_HEADER_SIZE ≤ file.length then
    if PIXEL_REAL_SIZE * (getWidth (file.take BMP_HEADER_SIZE) *
        getHeight (file.take BMP_HEADER_SIZE)) ≤
        (file.drop BMP_HEADER_SIZE).length then
      { ok := true, header := file.take BMP_HEADER_SIZE
        bmp := some (pixelsOfBytes ((file.drop BMP_HEADER_SIZE).take
          (PIXEL_REAL_SIZE * (getWidth (file.take BMP_HEADER_SIZE) *
            getHeight (file.take BMP_HEADER_SIZE))))) }
    else { ok := false, header := file.take BMP_HEADER_SIZE, bmp := none }
  else { ok := false, header := file.take BMP_HEADER_SIZE, bmp := bmp0 }

/-- `writeBmp` (lines 87-109): the bytes written to the output file — the
54 header bytes verbatim, then `getWidth * getHeight` pixels of 3 bytes
each, in buffer order. (Reading `bmp[i]` past the buffer's end is
undefined in C; the model truncates, which is never exercised by `main`,
whose buffer has exactly `width * height` pixels.) -/
def writeBmp (header : List ℕ) (bmp : List RgbPixel) : List ℕ :=
  header.take BMP_HEADER_SIZE ++
    bytesOfPixels (bmp.take (getWidth header * getHeight header))

/-! ### Driver (lines 145-193) -/

/-- The observable outcome of one run of `main`: which message/file it
produces and its exit status. -/
inductive MainOutcome where
  | usage (message : String) (exitCode : ℕ)
  | readFailure (exitCode : ℕ)
  | finished (outputFile : List ℕ) (exitCode : ℕ)
deriving DecidableEq, Repr

/-- The usage string printed by `main` (line 149). -/
def usageMessage : String :=
  "Usage: <program name> <input bmp file name> <output bmp file name> <radius>"

/-- The bytes `main` writes on its success path (lines 169-177): the
result buffer after the 100 kernel invocations (line 173-174; `junk` is
the fresh buffer's arbitrary initial contents, line 170), encoded behind
the preserved header by `writeBmp` (line 177). The decoded pixel list is
viewed as memory via `getD` (out-of-range reads never occur for the sizes
`main` uses). -/
def mainOutputFile (header : List ℕ) (bmpList : List RgbPixel) (radius : ℕ)
    (junk : ℕ → RgbPixel) : List ℕ :=
  writeBmp header
    ((List.range (getWidth header * getHeight header)).map
      ((fun d => processImageSmoothFilter
          (fun pos => bmpList.getD pos ⟨0, 0, 0⟩)
          (getWidth header) (getHeight header) radius d)^[100] junk))

/-- `main` (lines 145-193), abstracted over the input file's bytes and the
(uninitialized) contents `junk` of the freshly allocated result buffer
(line 170). With fewer or more than 3 positional arguments (`argc ≠ 4`) it
prints the usage text and returns 0 (lines 147-151); on a failed read it
returns 1 (lines 162-167); otherwise it runs the smoothing kernel 100
times into the result buffer (lines 173-174) and writes header plus result
buffer to the output file (line 177). The encode step's cannot-open-file
path (line 94) is environmental and not modelled. -/
def mainRun (argc : ℕ) (inputFile : List ℕ) (radius : ℕ)
    (junk : ℕ → RgbPixel) : MainOutcome :=
  if argc ≠ 4 then .usage usageMessage 0
  else if (readBmp inputFile none).ok then
    .finished
      (mainOutputFile (readBmp inputFile none).header
        ((readBmp inputFile none).bmp.getD []) radius junk) 0
  else .readFailure 1

/-! ### Specification-side definitions

Used only to compare the code's kernel with the spec's wording; written
from the spec text, not from the source. -/

/-- From the spec (§4.2): the window along one axis spans
`[max(0, i-radius), min(limit-1, i+radius)]` inclusive; on `ℕ`, truncated
subtraction `i - radius` is exactly `max 0 (i - radius)`. -/
def specWindow (limit radius i : ℕ) : Finset ℕ :=
  Finset.Icc (i - radius) (min (limit - 1) (i + radius))

/-- From the spec (§4.2, §8): the rounded arithmetic mean of channel
`chan` over pixel `(i, j)`'s window — every window pixel contributing
equally, the divisor being the window's actual pixel count, and the mean
rounded half-up. -/
def specMeanChan (chan : RgbPixel → ℕ) (bmp : ℕ → RgbPixel)
    (width height radius i j : ℕ) : ℕ :=
  ROUND
    ((((∑ ii ∈ specWindow height radius i, ∑ jj ∈ specWindow width radius j,
        chan (bmp (ii * width + jj)) : ℕ)) : ℚ) /
      (((specWindow height radius i).card * (specWindow width radius j).card : ℕ) : ℚ))

/-- From the spec: the smoothed pixel, per channel the rounded mean over
the (border-clipped) window. -/
def specSmoothPixel (bmp : ℕ → RgbPixel) (width height radius i j : ℕ) : RgbPixel :=
  { b := specMeanChan RgbPixel.b bmp width height radius i j
    g := specMeanChan RgbPixel.g bmp width height radius i j
    r := specMeanChan RgbPixel.r bmp width height radius i j }

/-! ### Concrete inputs used by witnesses and counterexamples -/

/-- The all-zero pixel. -/
def blackPixel : RgbPixel := ⟨0, 0, 0⟩

/-- The all-255 pixel. -/
def whitePixel : RgbPixel := ⟨255, 255, 255⟩

/-- The spec's §8 border-shrink image: 3×3, corner `(0,0)` white, the
other 8 pixels black. -/
def cornerImage : ℕ → RgbPixel := fun pos => if pos = 0 then whitePixel else blackPixel

/-- A 1×2 image whose radius-1 window has channel sum 1 over 2 pixels:
the exact-half rounding case. -/
def tieImage : ℕ → RgbPixel := fun pos => if pos = 0 then ⟨0, 0, 0⟩ else ⟨1, 1, 1⟩

/-- Memory holding 255 in every channel everywhere (a uniform white image
of any dimensions). -/
def whiteImage : ℕ → RgbPixel := fun _ => whitePixel

/-- An image alternating channel values 254 and 255 by position parity:
over a 2907×2908 frame (even column count) every window covering the whole
image has per-channel mean exactly 254.5. -/
def bigTieImage : ℕ → RgbPixel :=
  fun pos => ⟨254 + pos % 2, 254 + pos % 2, 254 + pos % 2⟩

/-- One arbitrary initial destination memory. -/
def destA : ℕ → RgbPixel := fun _ => blackPixel

/-- Another arbitrary initial destination memory. -/
def destB : ℕ → RgbPixel := fun _ => ⟨9, 9, 9⟩

/-- A well-formed 54-byte header declaring a 1×1 image: width field
(offset 18) and height field (offset 22) both 1, all other bytes 0. -/
def tinyHeader : List ℕ :=
  List.replicate 18 0 ++ [1, 0, 0, 0] ++ [1, 0, 0, 0] ++ List.replicate 28 0

/-- A well-formed file: the 1×1 header followed by exactly one 3-byte
pixel record. -/
def tinyFile : List ℕ := tinyHeader ++ [10, 20, 30]

/-! ## Lemmas about the window bounds and the rounding -/

theorem startIdx_eq_sub (radius i : ℕ) : startIdx radius i = i - radius := by
  unfold startIdx; split <;> omega

theorem startIdx_le (radius i : ℕ) : startIdx radius i ≤ i := by
  rw [startIdx_eq_sub]; omega

theorem le_endIdx (limit radius i : ℕ) (hi : i < limit) :
    i ≤ endIdx limit radius i := by
  unfold endIdx; split <;> omega

theorem endIdx_lt (limit radius i : ℕ) (hl : 0 < limit) :
    endIdx limit radius i < limit := by
  unfold endIdx; split <;> omega

theorem endIdx_eq_min (limit radius i : ℕ) (hl : 0 < limit) :
    endIdx limit radius i = min (limit - 1) (i + radius) := by
  unfold endIdx; split <;> omega

theorem windowCount_pos (w h radius i j : ℕ) : 0 < windowCount w h radius i j :=
  Nat.mul_pos (Nat.succ_pos _) (Nat.succ_pos _)

/-! Unfolding equations, stated at variables so that later rewrites at
large numeric arguments stay purely syntactic. -/

theorem sumChan_def (chan : RgbPixel → ℕ) (bmp : ℕ → RgbPixel)
    (w h radius i j : ℕ) :
    sumChan chan bmp w h radius i j =
      rawSumChan chan bmp w h radius i j % UINT_MOD := rfl

theorem rawSumChan_def (chan : RgbPixel → ℕ) (bmp : ℕ → RgbPixel)
    (w h radius i j : ℕ) :
    rawSumChan chan bmp w h radius i j =
      ∑ ii ∈ Finset.Icc (startIdx radius i) (endIdx h radius i),
        ∑ jj ∈ Finset.Icc (startIdx radius j) (endIdx w radius j),
          chan (bmp (ii * w + jj)) := rfl

theorem ROUNDF_def (s c : ℕ) :
    ROUNDF s c = (⌊fl32 (fl32 (s : ℚ) / fl32 (c : ℚ)) + 1 / 2⌋).toNat := rfl

theorem smoothPixelF_b (bmp : ℕ → RgbPixel) (w h radius i j : ℕ) :
    (smoothPixelF bmp w h radius i j).b =
      ROUNDF (sumChan RgbPixel.b bmp w h radius i j)
        (windowCount w h radius i j) := rfl

theorem smoothPixelF_chan (chan : RgbPixel → ℕ) (bmp : ℕ → RgbPixel)
    (w h radius i j : ℕ)
    (hchan : chan = RgbPixel.b ∨ chan = RgbPixel.g ∨ chan = RgbPixel.r) :
    chan (smoothPixelF bmp w h radius i j) =
      ROUNDF (sumChan chan bmp w h radius i j)
        (windowCount w h radius i j) := by
  rcases hchan with rfl | rfl | rfl <;> rfl

theorem processImageSmoothFilterF_def (bmp : ℕ → RgbPixel) (w h radius : ℕ)
    (result : ℕ → RgbPixel) (pos : ℕ) :
    processImageSmoothFilterF bmp w h radius result pos =
      if pos < h * w then smoothPixelF bmp w h radius (pos / w) (pos % w)
      else result pos := rfl

theorem windowCount_def (w h radius i j : ℕ) :
    windowCount w h radius i j =
      (endIdx h radius i - startIdx radius i + 1) *
        (endIdx w radius j - startIdx radius j + 1) := rfl

theorem processImageSmoothFilter_def (bmp : ℕ → RgbPixel) (w h radius : ℕ)
    (result : ℕ → RgbPixel) (pos : ℕ) :
    processImageSmoothFilter bmp w h radius result pos =
      if pos < h * w then smoothPixel bmp w h radius (pos / w) (pos % w)
      else result pos := rfl

theorem specWindow_def (limit radius i : ℕ) :
    specWindow limit radius i =
      Finset.Icc (i - radius) (min (limit - 1) (i + radius)) := rfl

theorem specMeanChan_def (chan : RgbPixel → ℕ) (bmp : ℕ → RgbPixel)
    (w h radius i j : ℕ) :
    specMeanChan chan bmp w h radius i j =
      ROUND
        ((((∑ ii ∈ specWindow h radius i, ∑ jj ∈ specWindow w radius j,
            chan (bmp (ii * w + jj)) : ℕ)) : ℚ) /
          (((specWindow h radius i).card * (specWindow w radius j).card : ℕ) : ℚ)) :=
  rfl

theorem specSmoothPixel_b (bmp : ℕ → RgbPixel) (w h radius i j : ℕ) :
    (specSmoothPixel bmp w h radius i j).b =
      specMeanChan RgbPixel.b bmp w h radius i j := rfl

theorem ROUND_natDiv (s c : ℕ) (hc : 0 < c) :
    ROUND ((s : ℚ) / (c : ℚ)) = (2 * s + c) / (2 * c) := by
  have hc' : (c : ℚ) ≠ 0 := by exact_mod_cast hc.ne'
  have h : (s : ℚ) / c + 1 / 2 = ((2 * s + c : ℕ) : ℚ) / ((2 * c : ℕ) : ℚ) := by
    push_cast; field_simp; ring
  unfold ROUND
  rw [h, Int.floor_toNat, Nat.floor_div_nat, Nat.floor_natCast]

/-! ## The single-precision rounding model -/

theorem rhe_intCast (n : ℤ) : rhe (n : ℚ) = n := by
  unfold rhe
  rw [Int.floor_intCast]
  rw [if_pos (by norm_num)]

theorem abs_rhe_sub (q : ℚ) : |(rhe q : ℚ) - q| ≤ 1 / 2 := by
  have h1 := Int.floor_le q
  have h2 := Int.lt_floor_add_one q
  unfold rhe
  split
  · rw [abs_le]
    constructor <;> [linarith; linarith]
  · split
    · rw [abs_le]
      push_cast
      constructor <;> linarith
    · split <;>
        (rw [abs_le]
         push_cast
         constructor <;> linarith)

theorem rhe_eq_of_lt_half (q : ℚ) (n : ℤ) (h1 : (n : ℚ) ≤ q)
    (h2 : q < (n : ℚ) + 1 / 2) : rhe q = n := by
  have hf : ⌊q⌋ = n := Int.floor_eq_iff.mpr ⟨h1, by linarith⟩
  unfold rhe
  rw [hf, if_pos (by linarith)]

theorem log2_eq (q : ℚ) (e : ℤ) (hq : 0 < q)
    (h1 : (2 : ℚ) ^ e ≤ q) (h2 : q < (2 : ℚ) ^ (e + 1)) :
    Int.log 2 q = e := by
  have h1' : ((2 : ℕ) : ℚ) ^ e ≤ q := by push_cast; exact h1
  have h2' : q < ((2 : ℕ) : ℚ) ^ (e + 1) := by push_cast; exact h2
  have hge : e ≤ Int.log 2 q := (Int.zpow_le_iff_le_log one_lt_two hq).mp h1'
  have hlt : Int.log 2 q < e + 1 := (Int.lt_zpow_iff_log_lt one_lt_two hq).mp h2'
  omega

theorem fl32_eval (q v : ℚ) (e : ℤ) (hq : 0 < q)
    (h1 : (2 : ℚ) ^ e ≤ q) (h2 : q < (2 : ℚ) ^ (e + 1))
    (hv : (rhe (q * (2 : ℚ) ^ ((23 : ℤ) - e)) : ℚ) * (2 : ℚ) ^ (e - 23) = v) :
    fl32 q = v := by
  unfold fl32
  rw [if_neg (not_le.mpr hq), log2_eq q e hq h1 h2, hv]

theorem fl32_exact (q : ℚ) (hq : 0 < q) (z : ℤ)
    (hz : q * (2 : ℚ) ^ ((23 : ℤ) - Int.log 2 q) = (z : ℚ)) : fl32 q = q := by
  unfold fl32
  rw [if_neg (not_le.mpr hq), hz, rhe_intCast, ← hz, mul_assoc,
    ← zpow_add₀ (two_ne_zero : (2 : ℚ) ≠ 0),
    show (23 : ℤ) - Int.log 2 q + (Int.log 2 q - 23) = 0 from by ring,
    zpow_zero, mul_one]

theorem fl32_err (q : ℚ) (hq : 0 < q) :
    |fl32 q - q| ≤ (2 : ℚ) ^ (Int.log 2 q - 24) := by
  unfold fl32
  rw [if_neg (not_le.mpr hq)]
  have h2pos : (0 : ℚ) < (2 : ℚ) ^ (Int.log 2 q - 23) := by positivity
  have hqm : q * (2 : ℚ) ^ ((23 : ℤ) - Int.log 2 q) *
      (2 : ℚ) ^ (Int.log 2 q - 23) = q := by
    rw [mul_assoc, ← zpow_add₀ (two_ne_zero : (2 : ℚ) ≠ 0),
      show (23 : ℤ) - Int.log 2 q + (Int.log 2 q - 23) = 0 from by ring,
      zpow_zero, mul_one]
  calc |(rhe (q * (2 : ℚ) ^ ((23 : ℤ) - Int.log 2 q)) : ℚ) *
        (2 : ℚ) ^ (Int.log 2 q - 23) - q|
      = |((rhe (q * (2 : ℚ) ^ ((23 : ℤ) - Int.log 2 q)) : ℚ) -
          q * (2 : ℚ) ^ ((23 : ℤ) - Int.log 2 q)) *
          (2 : ℚ) ^ (Int.log 2 q - 23)| := by
        rw [sub_mul, hqm]
    _ = |(rhe (q * (2 : ℚ) ^ ((23 : ℤ) - Int.log 2 q)) : ℚ) -
          q * (2 : ℚ) ^ ((23 : ℤ) - Int.log 2 q)| *
          (2 : ℚ) ^ (Int.log 2 q - 23) := by
        rw [abs_mul, abs_of_pos h2pos]
    _ ≤ (1 / 2) * (2 : ℚ) ^ (Int.log 2 q - 23) :=
        mul_le_mul_of_nonneg_right (abs_rhe_sub _) h2pos.le
    _ = (2 : ℚ) ^ (Int.log 2 q - 24) := by
        rw [show (1 : ℚ) / 2 = (2 : ℚ) ^ (-1 : ℤ) from by norm_num,
          ← zpow_add₀ (two_ne_zero : (2 : ℚ) ≠ 0)]
        congr 1
        ring

theorem fl32_natCast (n : ℕ) (hn : n < 2 ^ 24) : fl32 (n : ℚ) = n := by
  rcases Nat.eq_zero_or_pos n with rfl | hpos
  · rw [Nat.cast_zero]
    unfold fl32
    rw [if_pos le_rfl]
  · have hq : (0 : ℚ) < n := by exact_mod_cast hpos
    have he : Int.log 2 (n : ℚ) = (Nat.log 2 n : ℤ) := Int.log_natCast 2 n
    have he0 : 0 ≤ Int.log 2 (n : ℚ) := by rw [he]; exact Int.natCast_nonneg _
    have he23 : Int.log 2 (n : ℚ) ≤ 23 := by
      have h24 : (n : ℚ) < ((2 : ℕ) : ℚ) ^ (24 : ℤ) := by
        push_cast
        rw [show ((2 : ℚ) ^ (24 : ℤ)) = 16777216 from by norm_num]
        exact_mod_cast hn
      have := (Int.lt_zpow_iff_log_lt one_lt_two hq).mp h24
      omega
    apply fl32_exact (n : ℚ) hq
      ((n : ℤ) * 2 ^ ((23 : ℤ) - Int.log 2 (n : ℚ)).toNat)
    push_cast
    rw [← zpow_natCast (2 : ℚ) ((23 : ℤ) - Int.log 2 (n : ℚ)).toNat,
      Int.toNat_of_nonneg (by omega)]

/-- Core exactness result: rounding the correctly rounded single-precision
quotient of a byte sum by a window count below `2^16` gives the same
integer as rounding the exact quotient. The mean is at most 255, so its
float error is at most `2^(-17)`; distinct from a half-integer, the exact
mean keeps a distance of at least `1/(2*count) > 2^(-17)` from every
half-integer, and an exact half-integer mean is itself representable. -/
theorem fl32_round_exact (s c : ℕ) (k : ℤ) (hc : 0 < c) (hc16 : c < 2 ^ 16)
    (hs : s ≤ 255 * c) (hspos : 0 < s)
    (hk : ⌊(s : ℚ) / (c : ℚ) + 1 / 2⌋ = k) :
    ⌊fl32 ((s : ℚ) / (c : ℚ)) + 1 / 2⌋ = k := by
  set t : ℚ := (s : ℚ) / (c : ℚ) with htdef
  have hcq : (0 : ℚ) < c := by exact_mod_cast hc
  have hsq : (0 : ℚ) < s := by exact_mod_cast hspos
  have ht0 : 0 < t := div_pos hsq hcq
  have ht255 : t ≤ 255 := by
    rw [htdef, div_le_iff₀ hcq]
    exact_mod_cast hs
  set e := Int.log 2 t with hedef
  have he7 : e ≤ 7 := by
    have h8 : t < ((2 : ℕ) : ℚ) ^ (8 : ℤ) := by
      push_cast
      rw [show (2 : ℚ) ^ (8 : ℤ) = 256 from by norm_num]
      linarith
    have := (Int.lt_zpow_iff_log_lt one_lt_two ht0).mp h8
    omega
  have herr : |fl32 t - t| ≤ 1 / 131072 := by
    have h := (fl32_err t ht0).trans
      (zpow_le_zpow_right₀ (by norm_num) (by omega : e - 24 ≤ (-17 : ℤ)))
    rwa [show (2 : ℚ) ^ (-17 : ℤ) = 1 / 131072 from by norm_num] at h
  have hgap : (1 : ℚ) / 131072 < 1 / (2 * c) := by
    rw [div_lt_div_iff₀ (by norm_num) (by positivity)]
    have hcc : (2 * (c : ℚ)) < 131072 := by exact_mod_cast (by omega : 2 * c < 131072)
    linarith
  have hbounds : ((k : ℚ) ≤ t + 1 / 2 ∧ t + 1 / 2 < k + 1) := Int.floor_eq_iff.mp hk
  by_cases htie : t = (k : ℚ) - 1 / 2
  · -- the mean is exactly a half-integer: it is itself a float value
    have hk1 : (1 : ℤ) ≤ k := by
      by_contra hk0
      push_neg at hk0
      have : t ≤ -1 / 2 + 1 / 2 - 1 / 2 := by
        rw [htie]
        have : (k : ℚ) ≤ 0 := by exact_mod_cast (by omega : k ≤ 0)
        linarith
      linarith
    have he22 : (0 : ℤ) ≤ 22 - e := by omega
    have hz : t * (2 : ℚ) ^ ((23 : ℤ) - e) =
        (((2 * k - 1) * 2 ^ ((22 : ℤ) - e).toNat : ℤ) : ℚ) := by
      push_cast
      rw [← zpow_natCast (2 : ℚ) ((22 : ℤ) - e).toNat,
        Int.toNat_of_nonneg he22, htie,
        show (23 : ℤ) - e = 1 + (22 - e) from by ring,
        zpow_add₀ (two_ne_zero : (2 : ℚ) ≠ 0), zpow_one]
      ring
    rw [fl32_exact t ht0 _ hz, htie,
      show (k : ℚ) - 1 / 2 + 1 / 2 = (k : ℚ) from by ring, Int.floor_intCast]
  · -- the mean is not a half-integer: it stays 1/(2c) away from every one
    have hlow : (k : ℚ) - 1 / 2 + 1 / (2 * c) ≤ t := by
      have hlt : (k : ℚ) - 1 / 2 < t :=
        lt_of_le_of_ne (by linarith [hbounds.1]) (Ne.symm htie)
      have hZ : (2 * k - 1) * c < 2 * s := by
        have h1 : (((2 * k - 1) * c : ℤ) : ℚ) < ((2 * s : ℤ) : ℚ) := by
          push_cast
          rw [htdef, lt_div_iff₀ hcq] at hlt
          nlinarith [hlt]
        exact_mod_cast h1
      have hZ1 : (((2 * k - 1) * c + 1 : ℤ) : ℚ) ≤ ((2 * s : ℤ) : ℚ) := by
        exact_mod_cast (by omega : (2 * k - 1) * c + 1 ≤ 2 * s)
      push_cast at hZ1
      rw [htdef, le_div_iff₀ hcq,
        show ((k : ℚ) - 1 / 2 + 1 / (2 * (c : ℚ))) * c =
          (k : ℚ) * c - c / 2 + 1 / 2 from by field_simp; ring]
      linarith
    have hhigh : t ≤ (k : ℚ) + 1 / 2 - 1 / (2 * c) := by
      have hlt : t < (k : ℚ) + 1 / 2 := by linarith [hbounds.2]
      have hZ : 2 * s < (2 * k + 1) * c := by
        have h1 : ((2 * s : ℤ) : ℚ) < (((2 * k + 1) * c : ℤ) : ℚ) := by
          push_cast
          rw [htdef, div_lt_iff₀ hcq] at hlt
          nlinarith [hlt]
        exact_mod_cast h1
      have hZ1 : ((2 * s : ℤ) : ℚ) ≤ (((2 * k + 1) * c - 1 : ℤ) : ℚ) := by
        exact_mod_cast (by omega : 2 * s ≤ (2 * k + 1) * c - 1)
      push_cast at hZ1
      rw [htdef, div_le_iff₀ hcq,
        show ((k : ℚ) + 1 / 2 - 1 / (2 * (c : ℚ))) * c =
          (k : ℚ) * c + c / 2 - 1 / 2 from by field_simp; ring]
      linarith
    obtain ⟨habs1, habs2⟩ := abs_le.mp herr
    exact Int.floor_eq_iff.mpr ⟨by linarith, by linarith⟩

/-- The single-precision pipeline agrees with exact round-half-up whenever
the window pixel count is below `2^16` and the sum is a sum of at most
`count` byte values. -/
theorem ROUNDF_natDiv (s c : ℕ) (hc : 0 < c) (hc16 : c < 2 ^ 16)
    (hs : s ≤ 255 * c) :
    ROUNDF s c = (2 * s + c) / (2 * c) := by
  have hs24 : s < 2 ^ 24 := by omega
  have hc24 : c < 2 ^ 24 := by omega
  rw [ROUNDF_def, fl32_natCast s hs24, fl32_natCast c hc24]
  rcases Nat.eq_zero_or_pos s with rfl | hspos
  · rw [Nat.cast_zero, zero_div,
      show fl32 0 = 0 from by unfold fl32; rw [if_pos le_rfl],
      show ⌊(0 : ℚ) + 1 / 2⌋ = 0 from by norm_num]
    rw [show (0 : ℤ).toNat = 0 from rfl]
    symm
    apply Nat.div_eq_of_lt
    omega
  · have h1 := ROUND_natDiv s c hc
    unfold ROUND at h1
    have h2 : 0 ≤ ⌊(s : ℚ) / (c : ℚ) + 1 / 2⌋ :=
      Int.floor_nonneg.mpr (by positivity)
    have hk : ⌊(s : ℚ) / (c : ℚ) + 1 / 2⌋ = ((2 * s + c) / (2 * c) : ℕ) := by
      omega
    rw [fl32_round_exact s c _ hc hc16 hs hspos hk]
    exact Int.toNat_natCast _

theorem smoothPixel_b (bmp : ℕ → RgbPixel) (w h radius i j : ℕ) :
    (smoothPixel bmp w h radius i j).b =
      (2 * sumChan RgbPixel.b bmp w h radius i j + windowCount w h radius i j) /
        (2 * windowCount w h radius i j) := by
  simp only [smoothPixel]
  exact ROUND_natDiv _ _ (windowCount_pos w h radius i j)

theorem smoothPixel_g (bmp : ℕ → RgbPixel) (w h radius i j : ℕ) :
    (smoothPixel bmp w h radius i j).g =
      (2 * sumChan RgbPixel.g bmp w h radius i j + windowCount w h radius i j) /
        (2 * windowCount w h radius i j) := by
  simp only [smoothPixel]
  exact ROUND_natDiv _ _ (windowCount_pos w h radius i j)

theorem smoothPixel_r (bmp : ℕ → RgbPixel) (w h radius i j : ℕ) :
    (smoothPixel bmp w h radius i j).r =
      (2 * sumChan RgbPixel.r bmp w h radius i j + windowCount w h radius i j) /
        (2 * windowCount w h radius i j) := by
  simp only [smoothPixel]
  exact ROUND_natDiv _ _ (windowCount_pos w h radius i j)

theorem smoothPixel_chan (chan : RgbPixel → ℕ) (bmp : ℕ → RgbPixel)
    (w h radius i j : ℕ)
    (hchan : chan = RgbPixel.b ∨ chan = RgbPixel.g ∨ chan = RgbPixel.r) :
    chan (smoothPixel bmp w h radius i j) =
      (2 * sumChan chan bmp w h radius i j + windowCount w h radius i j) /
        (2 * windowCount w h radius i j) := by
  rcases hchan with rfl | rfl | rfl
  · exact smoothPixel_b bmp w h radius i j
  · exact smoothPixel_g bmp w h radius i j
  · exact smoothPixel_r bmp w h radius i j

/-! ## Position arithmetic -/

theorem pos_lt_size {w h i j : ℕ} (hi : i < h) (hj : j < w) :
    i * w + j < h * w := by
  calc i * w + j < i * w + w := by omega
  _ = (i + 1) * w := by ring
  _ ≤ h * w := Nat.mul_le_mul_right _ (by omega)

theorem pos_div {w i j : ℕ} (hj : j < w) : (i * w + j) / w = i := by
  have hw : 0 < w := by omega
  rw [mul_comm, Nat.mul_add_div hw, Nat.div_eq_of_lt hj, add_zero]

theorem pos_mod {w i j : ℕ} (hj : j < w) : (i * w + j) % w = j := by
  rw [mul_comm, Nat.mul_add_mod, Nat.mod_eq_of_lt hj]

/-! ## Window sums: bounds and the overflow-free regime -/

theorem card_Icc_window (limit radius i : ℕ) (hi : i < limit) :
    (Finset.Icc (startIdx radius i) (endIdx limit radius i)).card =
      endIdx limit radius i - startIdx radius i + 1 := by
  have h1 := startIdx_le radius i
  have h2 := le_endIdx limit radius i hi
  rw [Nat.card_Icc]; omega

theorem rawSumChan_le (chan : RgbPixel → ℕ) (bmp : ℕ → RgbPixel)
    (w h radius i j : ℕ) (hi : i < h) (hj : j < w)
    (hbound : ∀ pos, pos < h * w → chan (bmp pos) ≤ 255) :
    rawSumChan chan bmp w h radius i j ≤ 255 * windowCount w h radius i j := by
  have hw : 0 < w := by omega
  have hh : 0 < h := by omega
  unfold rawSumChan windowCount
  have hinner : ∀ ii ∈ Finset.Icc (startIdx radius i) (endIdx h radius i),
      (∑ jj ∈ Finset.Icc (startIdx radius j) (endIdx w radius j),
        chan (bmp (ii * w + jj))) ≤
      (endIdx w radius j - startIdx radius j + 1) * 255 := by
    intro ii hii
    rw [← card_Icc_window w radius j hj]
    refine Finset.sum_le_card_nsmul _ _ _ ?_
    intro jj hjj
    simp only [Finset.mem_Icc] at hii hjj
    have hii' : ii < h := lt_of_le_of_lt hii.2 (endIdx_lt h radius i hh)
    have hjj' : jj < w := lt_of_le_of_lt hjj.2 (endIdx_lt w radius j hw)
    exact hbound _ (pos_lt_size hii' hjj')
  calc (∑ ii ∈ Finset.Icc (startIdx radius i) (endIdx h radius i),
        ∑ jj ∈ Finset.Icc (startIdx radius j) (endIdx w radius j),
          chan (bmp (ii * w + jj)))
      ≤ (Finset.Icc (startIdx radius i) (endIdx h radius i)).card •
          ((endIdx w radius j - startIdx radius j + 1) * 255) :=
        Finset.sum_le_card_nsmul _ _ _ hinner
  _ = (endIdx h radius i - startIdx radius i + 1) *
        ((endIdx w radius j - startIdx radius j + 1) * 255) := by
        rw [card_Icc_window h radius i hi, smul_eq_mul]
  _ = 255 * ((endIdx h radius i - startIdx radius i + 1) *
        (endIdx w radius j - startIdx radius j + 1)) := by ring

theorem sumChan_eq_raw (chan : RgbPixel → ℕ) (bmp : ℕ → RgbPixel)
    (w h radius i j : ℕ) (hi : i < h) (hj : j < w)
    (hbound : ∀ pos, pos < h * w → chan (bmp pos) ≤ 255)
    (hfit : 255 * windowCount w h radius i j < UINT_MOD) :
    sumChan chan bmp w h radius i j = rawSumChan chan bmp w h radius i j := by
  unfold sumChan
  exact Nat.mod_eq_of_lt
    (lt_of_le_of_lt (rawSumChan_le chan bmp w h radius i j hi hj hbound) hfit)

/-! ## Radius zero -/

theorem startIdx_zero (i : ℕ) : startIdx 0 i = i := by
  unfold startIdx; split <;> omega

theorem endIdx_zero {limit i : ℕ} (hi : i < limit) : endIdx limit 0 i = i := by
  unfold endIdx; split <;> omega

theorem windowCount_radius_zero {w h i j : ℕ} (hi : i < h) (hj : j < w) :
    windowCount w h 0 i j = 1 := by
  unfold windowCount
  rw [startIdx_zero, startIdx_zero, endIdx_zero hi, endIdx_zero hj]
  simp

theorem rawSumChan_radius_zero (chan : RgbPixel → ℕ) (bmp : ℕ → RgbPixel)
    {w h i j : ℕ} (hi : i < h) (hj : j < w) :
    rawSumChan chan bmp w h 0 i j = chan (bmp (i * w + j)) := by
  unfold rawSumChan
  rw [startIdx_zero, startIdx_zero, endIdx_zero hi, endIdx_zero hj,
    Finset.Icc_self, Finset.Icc_self, Finset.sum_singleton, Finset.sum_singleton]

/-! ## Claim theorems -/

/-- C2: with radius 0 the kernel is the identity filter — every destination
position inside the image receives exactly the corresponding source pixel
(each pixel's window is just itself, count 1). -/
theorem radius_zero_identity (bmp : ℕ → RgbPixel) (w h : ℕ)
    (result : ℕ → RgbPixel) (pos : ℕ) (hvalid : ValidBuf bmp (h * w))
    (hpos : pos < h * w) :
    processImageSmoothFilter bmp w h 0 result pos = bmp pos := by
  have hw : 0 < w := by
    rcases Nat.eq_zero_or_pos w with h0 | h0
    · subst h0; simp at hpos
    · exact h0
  have hj : pos % w < w := Nat.mod_lt _ hw
  have hi : pos / w < h := (Nat.div_lt_iff_lt_mul hw).mpr hpos
  have hdecomp : (pos / w) * w + pos % w = pos := by
    rw [mul_comm]; exact Nat.div_add_mod pos w
  have hcount := windowCount_radius_zero hi hj
  have hM : (256 : ℕ) < UINT_MOD := by norm_num [UINT_MOD]
  have hsum : ∀ chan : RgbPixel → ℕ, chan (bmp pos) < UINT_MOD →
      sumChan chan bmp w h 0 (pos / w) (pos % w) = chan (bmp pos) := by
    intro chan hlt
    unfold sumChan
    rw [rawSumChan_radius_zero chan bmp hi hj, hdecomp, Nat.mod_eq_of_lt hlt]
  obtain ⟨hb, hg, hr⟩ := hvalid pos hpos
  unfold processImageSmoothFilter
  rw [if_pos hpos]
  ext
  · rw [smoothPixel_b, hsum RgbPixel.b (lt_trans hb hM), hcount]; omega
  · rw [smoothPixel_g, hsum RgbPixel.g (lt_trans hg hM), hcount]; omega
  · rw [smoothPixel_r, hsum RgbPixel.r (lt_trans hr hM), hcount]; omega

/-- Witness for C2 at a concrete input: the center pixel of the spec's 3×3
border-shrink image passes through unchanged at radius 0. -/
theorem radius_zero_identity_witness :
    processImageSmoothFilter cornerImage 3 3 0 destB 4 = cornerImage 4 :=
  radius_zero_identity cornerImage 3 3 destB 4
    (by
      intro pos _
      by_cases h0 : pos = 0 <;>
        simp [cornerImage, whitePixel, blackPixel, h0])
    (by decide)

/-- C3 (amended): whenever the window pixel count is below `2^16` — the
regime where the single-precision pipeline is provably exact — each output
channel of the kernel equals the (wrapping) unsigned window sum divided by
the window's pixel count, rounded half-up as `⌊x + 1/2⌋`, and lies in
8-bit range; in particular a mean of exactly `x + 1/2` rounds up to
`x + 1`. On larger windows the float pipeline can round the other way
(`smooth_tie_float_counterexample`). -/
theorem smoothF_channel_rounding (chan : RgbPixel → ℕ) (bmp : ℕ → RgbPixel)
    (w h radius i j : ℕ)
    (hchan : chan = RgbPixel.b ∨ chan = RgbPixel.g ∨ chan = RgbPixel.r)
    (hi : i < h) (hj : j < w) (hvalid : ValidBuf bmp (h * w))
    (hcount : windowCount w h radius i j < 2 ^ 16) :
    (chan (smoothPixelF bmp w h radius i j) =
        (⌊(sumChan chan bmp w h radius i j : ℚ) /
            (windowCount w h radius i j : ℚ) + 1 / 2⌋).toNat
      ∧ chan (smoothPixelF bmp w h radius i j) < 256)
    ∧ ∀ x : ℕ,
        2 * sumChan chan bmp w h radius i j =
          (2 * x + 1) * windowCount w h radius i j →
        chan (smoothPixelF bmp w h radius i j) = x + 1 := by
  have hcpos := windowCount_pos w h radius i j
  have hbound : ∀ pos, pos < h * w → chan (bmp pos) ≤ 255 := by
    intro pos hp
    obtain ⟨hb, hg, hr⟩ := hvalid pos hp
    rcases hchan with rfl | rfl | rfl <;> omega
  have hs_le : sumChan chan bmp w h radius i j ≤
      255 * windowCount w h radius i j :=
    le_trans (Nat.mod_le _ _) (rawSumChan_le chan bmp w h radius i j hi hj hbound)
  have hkey : chan (smoothPixelF bmp w h radius i j) =
      (2 * sumChan chan bmp w h radius i j + windowCount w h radius i j) /
        (2 * windowCount w h radius i j) := by
    rw [smoothPixelF_chan chan bmp w h radius i j hchan]
    exact ROUNDF_natDiv _ _ hcpos hcount hs_le
  refine ⟨⟨?_, ?_⟩, ?_⟩
  · rw [hkey, ← ROUND_natDiv _ _ hcpos]
    rfl
  · rw [hkey]
    have h1 : 2 * sumChan chan bmp w h radius i j + windowCount w h radius i j <
        256 * (2 * windowCount w h radius i j) := by
      calc 2 * sumChan chan bmp w h radius i j + windowCount w h radius i j
          ≤ 2 * (255 * windowCount w h radius i j) + windowCount w h radius i j := by
            omega
        _ = 511 * windowCount w h radius i j := by ring
        _ < 512 * windowCount w h radius i j := by
            exact (Nat.mul_lt_mul_right hcpos).mpr (by norm_num)
        _ = 256 * (2 * windowCount w h radius i j) := by ring
    exact (Nat.div_lt_iff_lt_mul (by omega)).mpr h1
  · intro x hx
    rw [hkey, hx]
    have h2 : (2 * x + 1) * windowCount w h radius i j +
        windowCount w h radius i j = (x + 1) * (2 * windowCount w h radius i j) := by
      ring
    rw [h2, Nat.mul_div_cancel _ (by omega)]

/-- Witness for C3 at the spec's constructed input: a 1×2 image whose
single-row radius-1 window (2 pixels, count well below `2^16`) sums to 1
(mean exactly 1/2) and rounds up to 1. -/
theorem smoothF_channel_rounding_witness :
    (smoothPixelF tieImage 2 1 1 0 0).r = 0 + 1 :=
  (smoothF_channel_rounding RgbPixel.r tieImage 2 1 1 0 0
      (by right; right; rfl) (by decide) (by decide)
      (by
        intro pos _
        by_cases h0 : pos = 0 <;> simp [tieImage, h0])
      (by decide)).2
    0 (by decide)

/-- The window sum of a constant channel is the window's cardinality times
the constant. -/
theorem rawSumChan_of_const (chan : RgbPixel → ℕ) (bmp : ℕ → RgbPixel)
    (w h radius i j c : ℕ) (hc : ∀ pos, chan (bmp pos) = c) :
    rawSumChan chan bmp w h radius i j =
      (Finset.Icc (startIdx radius i) (endIdx h radius i)).card *
        ((Finset.Icc (startIdx radius j) (endIdx w radius j)).card * c) := by
  unfold rawSumChan
  simp [hc, Finset.sum_const, smul_eq_mul]

/-- One channel of the spec-side mean coincides with the corresponding
channel of the kernel's pixel when the window sum fits 32 bits. -/
theorem specMeanChan_eq_smooth (chan : RgbPixel → ℕ) (bmp : ℕ → RgbPixel)
    (w h radius i j : ℕ)
    (hchan : chan = RgbPixel.b ∨ chan = RgbPixel.g ∨ chan = RgbPixel.r)
    (hi : i < h) (hj : j < w) (hvalid : ValidBuf bmp (h * w))
    (hfit : 255 * windowCount w h radius i j < UINT_MOD) :
    specMeanChan chan bmp w h radius i j = chan (smoothPixel bmp w h radius i j) := by
  have hw : 0 < w := by omega
  have hh : 0 < h := by omega
  have hrow : specWindow h radius i =
      Finset.Icc (startIdx radius i) (endIdx h radius i) := by
    unfold specWindow
    rw [startIdx_eq_sub, endIdx_eq_min h radius i hh]
  have hcol : specWindow w radius j =
      Finset.Icc (startIdx radius j) (endIdx w radius j) := by
    unfold specWindow
    rw [startIdx_eq_sub, endIdx_eq_min w radius j hw]
  have hcard : (specWindow h radius i).card * (specWindow w radius j).card =
      windowCount w h radius i j := by
    rw [hrow, hcol, card_Icc_window h radius i hi, card_Icc_window w radius j hj]
    rfl
  have hbound : ∀ pos, pos < h * w → chan (bmp pos) ≤ 255 := by
    intro pos hp
    obtain ⟨hb, hg, hr⟩ := hvalid pos hp
    rcases hchan with rfl | rfl | rfl <;> omega
  have hsum : sumChan chan bmp w h radius i j = rawSumChan chan bmp w h radius i j :=
    sumChan_eq_raw chan bmp w h radius i j hi hj hbound hfit
  unfold specMeanChan
  rw [hcard, hrow, hcol, smoothPixel_chan chan bmp w h radius i j hchan]
  show ROUND ((rawSumChan chan bmp w h radius i j : ℚ) /
      (windowCount w h radius i j : ℚ)) = _
  rw [ROUND_natDiv _ _ (windowCount_pos w h radius i j), ← hsum]

/-- C1 (amended): for every pixel whose window holds fewer than `2^16`
pixels — the regime where the 32-bit accumulators cannot wrap and the
single-precision pipeline is provably exact — the kernel's output pixel at
row `i`, column `j` is, per channel, the rounded mean over the spec's
border-clipped window
`[max(0,i-radius), min(h-1,i+radius)] × [max(0,j-radius), min(w-1,j+radius)]`,
every window pixel contributing equally and the divisor being the window's
actual pixel count. Beyond that regime the program diverges from the
rounded mean, by accumulator wrap-around
(`smooth_overflow_counterexample`) or by float rounding
(`smooth_tie_float_counterexample`). -/
theorem smoothF_matches_spec_mean (bmp : ℕ → RgbPixel) (w h radius : ℕ)
    (result : ℕ → RgbPixel) (i j : ℕ) (hi : i < h) (hj : j < w)
    (hvalid : ValidBuf bmp (h * w))
    (hcount : windowCount w h radius i j < 2 ^ 16) :
    processImageSmoothFilterF bmp w h radius result (i * w + j) =
      specSmoothPixel bmp w h radius i j := by
  have hcpos := windowCount_pos w h radius i j
  have hfit : 255 * windowCount w h radius i j < UINT_MOD := by
    have hM : UINT_MOD = 4294967296 := by norm_num [UINT_MOD]
    omega
  have key : ∀ chan : RgbPixel → ℕ,
      (chan = RgbPixel.b ∨ chan = RgbPixel.g ∨ chan = RgbPixel.r) →
      chan (smoothPixelF bmp w h radius i j) =
        specMeanChan chan bmp w h radius i j := by
    intro chan hchan
    have hbound : ∀ pos, pos < h * w → chan (bmp pos) ≤ 255 := by
      intro pos hp
      obtain ⟨hb, hg, hr⟩ := hvalid pos hp
      rcases hchan with rfl | rfl | rfl <;> omega
    have hs_le : sumChan chan bmp w h radius i j ≤
        255 * windowCount w h radius i j :=
      le_trans (Nat.mod_le _ _)
        (rawSumChan_le chan bmp w h radius i j hi hj hbound)
    rw [smoothPixelF_chan chan bmp w h radius i j hchan,
      ROUNDF_natDiv _ _ hcpos hcount hs_le,
      ← smoothPixel_chan chan bmp w h radius i j hchan]
    exact (specMeanChan_eq_smooth chan bmp w h radius i j hchan hi hj
      hvalid hfit).symm
  rw [processImageSmoothFilterF_def, if_pos (pos_lt_size hi hj),
    pos_div hj, pos_mod hj]
  ext
  · exact key RgbPixel.b (Or.inl rfl)
  · exact key RgbPixel.g (Or.inr (Or.inl rfl))
  · exact key RgbPixel.r (Or.inr (Or.inr rfl))

/-- Witness for C1 (amended) at the spec's border-shrink input: the corner
pixel of the 3×3 image at radius 1, whose clipped window holds exactly 4
pixels. -/
theorem smoothF_matches_spec_mean_witness :
    processImageSmoothFilterF cornerImage 3 3 1 destA (0 * 3 + 0) =
      specSmoothPixel cornerImage 3 3 1 0 0 ∧ windowCount 3 3 1 0 0 = 4 :=
  ⟨smoothF_matches_spec_mean cornerImage 3 3 1 destA 0 0 (by decide) (by decide)
      (by
        intro pos _
        by_cases h0 : pos = 0 <;>
          simp [cornerImage, whitePixel, blackPixel, h0])
      (by decide),
    by decide⟩

/-- Counterexample to C1 as stated (quantified over *every* buffer and
radius): on a 4105×4105 all-white image with radius 4104, the corner
pixel's window holds 16851025 pixels, its channel sum `16851025 * 255 =
4297011375` wraps the 32-bit accumulator to 2044079, and the kernel
outputs channel 0 — while the rounded arithmetic mean over the window is
255. -/
theorem smooth_overflow_counterexample :
    processImageSmoothFilter whiteImage 4105 4105 4104 destA 0 ≠
      specSmoothPixel whiteImage 4105 4105 4104 0 0 := by
  have hstart : startIdx 4104 0 = 0 := by decide
  have hend : endIdx 4105 4104 0 = 4104 := by decide
  have hcard : (Finset.Icc (startIdx 4104 0) (endIdx 4105 4104 0)).card = 4105 := by
    rw [hstart, hend, Nat.card_Icc]
  have hraw : rawSumChan RgbPixel.b whiteImage 4105 4105 4104 0 0 = 4297011375 := by
    rw [rawSumChan_of_const RgbPixel.b whiteImage 4105 4105 4104 0 0 255
      (fun _ => rfl), hcard]
  have hsum : sumChan RgbPixel.b whiteImage 4105 4105 4104 0 0 = 2044079 := by
    rw [sumChan_def, hraw]
    norm_num [UINT_MOD]
  have hcount : windowCount 4105 4105 4104 0 0 = 16851025 := by
    rw [windowCount_def, hstart, hend]
  have hlhs : (processImageSmoothFilter whiteImage 4105 4105 4104 destA 0).b = 0 := by
    rw [processImageSmoothFilter_def, if_pos (by norm_num), Nat.zero_div,
      Nat.zero_mod, smoothPixel_b, hsum, hcount]
  have hwndw : specWindow 4105 4104 0 = Finset.Icc 0 4104 := by
    rw [specWindow_def]
    norm_num
  have hspecsum : (∑ ii ∈ Finset.Icc (0 : ℕ) 4104, ∑ jj ∈ Finset.Icc (0 : ℕ) 4104,
      RgbPixel.b (whiteImage (ii * 4105 + jj)) : ℕ) = 4297011375 := by
    simp [whiteImage, whitePixel, Finset.sum_const, Nat.card_Icc, smul_eq_mul]
  have hspeccard : ((Finset.Icc (0 : ℕ) 4104).card *
      (Finset.Icc (0 : ℕ) 4104).card : ℕ) = 16851025 := by
    rw [Nat.card_Icc]
  have hrhs : (specSmoothPixel whiteImage 4105 4105 4104 0 0).b = 255 := by
    rw [specSmoothPixel_b, specMeanChan_def, hwndw, hspecsum, hspeccard,
      ROUND_natDiv 4297011375 16851025 (by norm_num)]
  intro heq
  rw [heq, hrhs] at hlhs
  exact absurd hlhs (by norm_num)

/-- The window never holds more pixels than the image. -/
theorem windowCount_le (w h radius i j : ℕ) (hi : i < h) (hj : j < w) :
    windowCount w h radius i j ≤ h * w := by
  have h1 := endIdx_lt h radius i (by omega)
  have h2 := endIdx_lt w radius j (by omega)
  rw [windowCount_def]
  exact Nat.mul_le_mul (by omega) (by omega)

/-- The window sum of a constant channel is the window count times the
constant. -/
theorem rawSumChan_const_eq (chan : RgbPixel → ℕ) (bmp : ℕ → RgbPixel)
    (w h radius i j v : ℕ) (hc : ∀ pos, chan (bmp pos) = v)
    (hi : i < h) (hj : j < w) :
    rawSumChan chan bmp w h radius i j = windowCount w h radius i j * v := by
  rw [rawSumChan_of_const chan bmp w h radius i j v hc,
    card_Icc_window h radius i hi, card_Icc_window w radius j hj,
    windowCount_def]
  ring

/-- C6 (amended): a uniform-color image is a fixed point of the filter for
every radius, provided the worst-case window sum fits the 32-bit
accumulators (`h * w * 255 < 2^32`). -/
theorem uniform_fixed_point (c : RgbPixel) (w h radius : ℕ)
    (result : ℕ → RgbPixel) (pos : ℕ)
    (hb : c.b < 256) (hg : c.g < 256) (hr : c.r < 256)
    (hfit : h * w * 255 < UINT_MOD) (hpos : pos < h * w) :
    processImageSmoothFilter (fun _ => c) w h radius result pos = c := by
  have hw : 0 < w := by
    rcases Nat.eq_zero_or_pos w with h0 | h0
    · subst h0; simp at hpos
    · exact h0
  have hj : pos % w < w := Nat.mod_lt _ hw
  have hi : pos / w < h := (Nat.div_lt_iff_lt_mul hw).mpr hpos
  have key : ∀ chan : RgbPixel → ℕ,
      (chan = RgbPixel.b ∨ chan = RgbPixel.g ∨ chan = RgbPixel.r) →
      chan c ≤ 255 →
      chan (smoothPixel (fun _ => c) w h radius (pos / w) (pos % w)) = chan c := by
    intro chan hchan hle
    have hcpos := windowCount_pos w h radius (pos / w) (pos % w)
    have hsum : sumChan chan (fun _ => c) w h radius (pos / w) (pos % w) =
        windowCount w h radius (pos / w) (pos % w) * chan c := by
      rw [sumChan_def,
        rawSumChan_const_eq chan (fun _ => c) w h radius (pos / w) (pos % w)
          (chan c) (fun _ => rfl) hi hj]
      exact Nat.mod_eq_of_lt (lt_of_le_of_lt
        (Nat.mul_le_mul (windowCount_le w h radius (pos / w) (pos % w) hi hj) hle)
        hfit)
    rw [smoothPixel_chan chan _ w h radius (pos / w) (pos % w) hchan, hsum]
    rw [show 2 * (windowCount w h radius (pos / w) (pos % w) * chan c) +
          windowCount w h radius (pos / w) (pos % w) =
        windowCount w h radius (pos / w) (pos % w) * (2 * chan c + 1) from by ring,
      show 2 * windowCount w h radius (pos / w) (pos % w) =
        windowCount w h radius (pos / w) (pos % w) * 2 from by ring,
      Nat.mul_div_mul_left _ _ hcpos]
    omega
  rw [processImageSmoothFilter_def, if_pos hpos]
  ext
  · exact key RgbPixel.b (Or.inl rfl) (by omega)
  · exact key RgbPixel.g (Or.inr (Or.inl rfl)) (by omega)
  · exact key RgbPixel.r (Or.inr (Or.inr rfl)) (by omega)

/-- Witness for C6 (amended) at a concrete input: a uniform 2×2 image of
color (1,2,3) with radius 5 passes through unchanged at position 3. -/
theorem uniform_fixed_point_witness :
    processImageSmoothFilter (fun _ => RgbPixel.mk 1 2 3) 2 2 5 destA 3 =
      RgbPixel.mk 1 2 3 :=
  uniform_fixed_point ⟨1, 2, 3⟩ 2 2 5 destA 3 (by decide) (by decide) (by decide)
    (by norm_num [UINT_MOD]) (by decide)

/-- Counterexample to C6 as stated (quantified over *every* uniform image
and radius): on a 4105-row, 4106-column all-white image with radius 4105,
the corner pixel's window holds 16855130 pixels, the channel sum
`16855130 * 255 = 4298058150` wraps the 32-bit accumulator to 3090854,
and the kernel outputs channel 0 instead of 255. -/
theorem uniform_overflow_counterexample :
    processImageSmoothFilter whiteImage 4106 4105 4105 destA 0 ≠ whiteImage 0 := by
  have hstart : startIdx 4105 0 = 0 := by decide
  have hendR : endIdx 4105 4105 0 = 4104 := by decide
  have hendC : endIdx 4106 4105 0 = 4105 := by decide
  have hraw : rawSumChan RgbPixel.b whiteImage 4106 4105 4105 0 0 = 4298058150 := by
    rw [rawSumChan_of_const RgbPixel.b whiteImage 4106 4105 4105 0 0 255
      (fun _ => rfl), hstart, hendR, hendC, Nat.card_Icc, Nat.card_Icc]
  have hsum : sumChan RgbPixel.b whiteImage 4106 4105 4105 0 0 = 3090854 := by
    rw [sumChan_def, hraw]
    norm_num [UINT_MOD]
  have hcount : windowCount 4106 4105 4105 0 0 = 16855130 := by
    rw [windowCount_def, hstart, hendR, hendC]
  have hlhs : (processImageSmoothFilter whiteImage 4106 4105 4105 destA 0).b = 0 := by
    rw [processImageSmoothFilter_def, if_pos (by norm_num), Nat.zero_div,
      Nat.zero_mod, smoothPixel_b, hsum, hcount]
  intro heq
  rw [heq] at hlhs
  exact absurd hlhs (by decide)

/-- Sum of `j % 2` over `0..k`. -/
theorem sum_mod_two_Icc (k : ℕ) :
    (∑ jj ∈ Finset.Icc 0 k, jj % 2) = (k + 1) / 2 := by
  induction k with
  | zero => simp
  | succ m ih =>
    rw [Finset.sum_Icc_succ_top (Nat.zero_le _), ih]
    omega

/-- Concrete single-precision trace of the 2907×2908 tie window: the sum
2151430002 converts to `float` as 2151429888 (the low 114 are rounded
away), the quotient by 8453556 rounds to the float 16678911/65536 just
below 254.5, and adding 0.5 and truncating yields 254 — not the 255 that
exact round-half-up of the mean 254.5 produces. -/
theorem ROUNDF_bigtie : ROUNDF 2151430002 8453556 = 254 := by
  have hB : fl32 ((8453556 : ℕ) : ℚ) = ((8453556 : ℕ) : ℚ) :=
    fl32_natCast 8453556 (by norm_num)
  have hA : fl32 ((2151430002 : ℕ) : ℚ) = 2151429888 := by
    have hr : rhe (((2151430002 : ℕ) : ℚ) * (2 : ℚ) ^ ((23 : ℤ) - 31)) =
        8404023 := by
      rw [show ((23 : ℤ) - 31) = (-8 : ℤ) from by norm_num,
        show (2 : ℚ) ^ (-8 : ℤ) = 1 / 256 from by norm_num]
      apply rhe_eq_of_lt_half
      · push_cast
        norm_num
      · push_cast
        norm_num
    refine fl32_eval _ _ 31 (by positivity) ?_ ?_ ?_
    · rw [show (2 : ℚ) ^ (31 : ℤ) = 2147483648 from by norm_num]
      push_cast
      norm_num
    · rw [show (2 : ℚ) ^ ((31 : ℤ) + 1) = 4294967296 from by norm_num]
      push_cast
      norm_num
    · rw [hr, show ((31 : ℤ) - 23) = (8 : ℤ) from by norm_num,
        show (2 : ℚ) ^ (8 : ℤ) = 256 from by norm_num]
      norm_num
  have hQ : fl32 ((2151429888 : ℚ) / ((8453556 : ℕ) : ℚ)) =
      16678911 / 65536 := by
    have hr2 : rhe ((2151429888 : ℚ) / ((8453556 : ℕ) : ℚ) *
        (2 : ℚ) ^ ((23 : ℤ) - 7)) = 16678911 := by
      rw [show ((23 : ℤ) - 7) = (16 : ℤ) from by norm_num,
        show (2 : ℚ) ^ (16 : ℤ) = 65536 from by norm_num]
      apply rhe_eq_of_lt_half
      · push_cast
        rw [div_mul_eq_mul_div, le_div_iff₀ (by norm_num)]
        norm_num
      · push_cast
        rw [div_mul_eq_mul_div, div_lt_iff₀ (by norm_num)]
        norm_num
    refine fl32_eval _ _ 7 (by positivity) ?_ ?_ ?_
    · rw [show (2 : ℚ) ^ (7 : ℤ) = 128 from by norm_num]
      push_cast
      rw [le_div_iff₀ (by norm_num)]
      norm_num
    · rw [show (2 : ℚ) ^ ((7 : ℤ) + 1) = 256 from by norm_num]
      push_cast
      rw [div_lt_iff₀ (by norm_num)]
      norm_num
    · rw [hr2, show ((7 : ℤ) - 23) = (-16 : ℤ) from by norm_num,
        show (2 : ℚ) ^ (-16 : ℤ) = 1 / 65536 from by norm_num]
      norm_num
  rw [ROUNDF_def, hA, hB, hQ,
    show ⌊(16678911 : ℚ) / 65536 + 1 / 2⌋ = 254 from
      Int.floor_eq_iff.mpr ⟨by norm_num, by norm_num⟩]
  rfl

/-- Counterexample to C3 as stated: on a 2907×2908 image alternating
channel values 254 and 255 (radius 2907, so the corner window is the whole
image, 8453556 pixels, channel sum 2151430002), the per-channel mean is
exactly 254.5 — the round-half-up claim demands `ceil(254.5) = 255` — yet
the program's single-precision pipeline outputs 254: `(float)` conversion
of the sum discards its low 114, pulling the float quotient just below
254.5. -/
theorem smooth_tie_float_counterexample :
    2 * sumChan RgbPixel.b bigTieImage 2908 2907 2907 0 0 =
        (2 * 254 + 1) * windowCount 2908 2907 2907 0 0 ∧
      (smoothPixelF bigTieImage 2908 2907 2907 0 0).b = 254 := by
  have hstart : startIdx 2907 0 = 0 := by decide
  have hendR : endIdx 2907 2907 0 = 2906 := by decide
  have hendC : endIdx 2908 2907 0 = 2907 := by decide
  have hcount : windowCount 2908 2907 2907 0 0 = 8453556 := by
    rw [windowCount_def, hstart, hendR, hendC]
  have hraw : rawSumChan RgbPixel.b bigTieImage 2908 2907 2907 0 0 =
      2151430002 := by
    rw [rawSumChan_def, hstart, hendR, hendC]
    have hin : ∀ ii ∈ Finset.Icc (0 : ℕ) 2906,
        (∑ jj ∈ Finset.Icc (0 : ℕ) 2907,
          RgbPixel.b (bigTieImage (ii * 2908 + jj))) = 740086 := by
      intro ii _
      have hcongr : ∀ jj ∈ Finset.Icc (0 : ℕ) 2907,
          RgbPixel.b (bigTieImage (ii * 2908 + jj)) = 254 + jj % 2 := by
        intro jj _
        show 254 + (ii * 2908 + jj) % 2 = 254 + jj % 2
        rw [show ii * 2908 = 2 * (ii * 1454) from by ring, Nat.mul_add_mod]
      rw [Finset.sum_congr rfl hcongr, Finset.sum_add_distrib, Finset.sum_const,
        Nat.card_Icc, smul_eq_mul, sum_mod_two_Icc]
    rw [Finset.sum_congr rfl hin, Finset.sum_const, Nat.card_Icc, smul_eq_mul]
  have hsum : sumChan RgbPixel.b bigTieImage 2908 2907 2907 0 0 =
      2151430002 := by
    rw [sumChan_def, hraw]
    norm_num [UINT_MOD]
  constructor
  · rw [hsum, hcount]
  · rw [smoothPixelF_b, hsum, hcount, ROUNDF_bigtie]

/-! ## The loop as a sequence of destination writes -/

theorem mem_writeIndices (w h : ℕ) (p : ℕ × ℕ) :
    p ∈ writeIndices w h ↔ p.1 < h ∧ p.2 < w := by
  unfold writeIndices
  simp only [List.mem_flatMap, List.mem_map, List.mem_range]
  constructor
  · rintro ⟨i, hi, j, hj, rfl⟩
    exact ⟨hi, hj⟩
  · rintro ⟨h1, h2⟩
    exact ⟨p.1, h1, p.2, h2, Prod.mk.eta⟩

/-- The loop nest's write positions, in order, are exactly
`0, 1, …, h*w - 1`: every destination index inside the image is written
exactly once (`List.range` has no duplicates). -/
theorem keys_writeIndices (w h : ℕ) :
    (writeIndices w h).map (fun p => p.1 * w + p.2) = List.range (h * w) := by
  induction h with
  | zero => simp [writeIndices]
  | succ m ih =>
    have hrange : List.range (Nat.succ m * w) =
        List.range (m * w) ++ (List.range w).map (fun x => m * w + x) := by
      rw [Nat.succ_mul, List.range_add]
    unfold writeIndices at ih ⊢
    rw [List.range_succ, List.flatMap_append, List.map_append, ih, hrange]
    simp [List.map_map, Function.comp]

theorem runWrites_notMem (bmp : ℕ → RgbPixel) (w h radius : ℕ)
    (l : List (ℕ × ℕ)) (res : ℕ → RgbPixel) (pos : ℕ)
    (hpos : ∀ p ∈ l, p.1 * w + p.2 ≠ pos) :
    runWrites bmp w h radius l res pos = res pos := by
  induction l generalizing res with
  | nil => rfl
  | cons q t ih =>
    rw [show runWrites bmp w h radius (q :: t) res =
        runWrites bmp w h radius t
          (Function.update res (q.1 * w + q.2)
            (smoothPixel bmp w h radius q.1 q.2)) from rfl,
      ih _ (fun p hp => hpos p (List.mem_cons_of_mem q hp))]
    exact Function.update_noteq (Ne.symm (hpos q (List.mem_cons_self q t))) _ _

theorem runWrites_mem (bmp : ℕ → RgbPixel) (w h radius : ℕ)
    (l : List (ℕ × ℕ)) (res : ℕ → RgbPixel) (i j : ℕ)
    (hmem : (i, j) ∈ l)
    (hnodup : (l.map (fun p => p.1 * w + p.2)).Nodup) :
    runWrites bmp w h radius l res (i * w + j) = smoothPixel bmp w h radius i j := by
  induction l generalizing res with
  | nil => simp at hmem
  | cons q t ih =>
    rw [show runWrites bmp w h radius (q :: t) res =
        runWrites bmp w h radius t
          (Function.update res (q.1 * w + q.2)
            (smoothPixel bmp w h radius q.1 q.2)) from rfl]
    rw [List.map_cons, List.nodup_cons] at hnodup
    rcases List.mem_cons.mp hmem with heq | ht
    · have hq : q = (i, j) := heq.symm
      subst hq
      have hkey : ∀ p ∈ t, p.1 * w + p.2 ≠ i * w + j := by
        intro p hp hpe
        exact hnodup.1 (hpe ▸ List.mem_map_of_mem (fun p => p.1 * w + p.2) hp)
      rw [runWrites_notMem bmp w h radius t _ _ hkey]
      exact Function.update_same _ _ _
    · exact ih _ ht hnodup.2

/-- Folding the loop's writes in their row-major program order computes
the direct per-position description of the kernel. -/
theorem runWrites_writeIndices (bmp : ℕ → RgbPixel) (w h radius : ℕ)
    (res : ℕ → RgbPixel) (pos : ℕ) :
    runWrites bmp w h radius (writeIndices w h) res pos =
      processImageSmoothFilter bmp w h radius res pos := by
  have hnodup : ((writeIndices w h).map (fun p => p.1 * w + p.2)).Nodup := by
    rw [keys_writeIndices]
    exact List.nodup_range _
  by_cases hpos : pos < h * w
  · have hw : 0 < w := by
      rcases Nat.eq_zero_or_pos w with h0 | h0
      · subst h0; simp at hpos
      · exact h0
    have hj : pos % w < w := Nat.mod_lt _ hw
    have hi : pos / w < h := (Nat.div_lt_iff_lt_mul hw).mpr hpos
    have hkey : (pos / w) * w + pos % w = pos := by
      rw [mul_comm]; exact Nat.div_add_mod pos w
    have hmem : (pos / w, pos % w) ∈ writeIndices w h :=
      (mem_writeIndices w h _).mpr ⟨hi, hj⟩
    rw [← hkey, runWrites_mem bmp w h radius _ res (pos / w) (pos % w) hmem hnodup,
      processImageSmoothFilter_def, if_pos (pos_lt_size hi hj),
      pos_div hj, pos_mod hj]
  · rw [runWrites_notMem bmp w h radius _ res pos
        (fun p hp hpe => hpos (hpe ▸
          pos_lt_size ((mem_writeIndices w h p).mp hp).1
            ((mem_writeIndices w h p).mp hp).2)),
      processImageSmoothFilter_def, if_neg hpos]

/-- Any serialization of the loop's writes — any permutation of the
row-major order, hence any partition of rows among workers executed in any
interleaving — computes the same destination contents. -/
theorem runWrites_perm (bmp : ℕ → RgbPixel) (w h radius : ℕ)
    (l : List (ℕ × ℕ)) (hl : l.Perm (writeIndices w h))
    (res : ℕ → RgbPixel) (pos : ℕ) :
    runWrites bmp w h radius l res pos =
      processImageSmoothFilter bmp w h radius res pos := by
  have hcomm : ∀ x ∈ l, ∀ y ∈ l, ∀ z : ℕ → RgbPixel,
      Function.update (Function.update z (x.1 * w + x.2)
          (smoothPixel bmp w h radius x.1 x.2)) (y.1 * w + y.2)
          (smoothPixel bmp w h radius y.1 y.2) =
      Function.update (Function.update z (y.1 * w + y.2)
          (smoothPixel bmp w h radius y.1 y.2)) (x.1 * w + x.2)
          (smoothPixel bmp w h radius x.1 x.2) := by
    intro x hx y hy z
    by_cases hxy : x.1 * w + x.2 = y.1 * w + y.2
    · have hxw := (mem_writeIndices w h x).mp (hl.subset hx)
      have hyw := (mem_writeIndices w h y).mp (hl.subset hy)
      have hx1 : x.1 = y.1 := by
        rw [← pos_div (w := w) (i := x.1) hxw.2, hxy, pos_div hyw.2]
      have hx2 : x.2 = y.2 := by
        rw [← pos_mod (w := w) (i := x.1) hxw.2, hxy, pos_mod hyw.2]
      have : x = y := Prod.ext hx1 hx2
      subst this
      rfl
    · exact Function.update_comm hxy _ _ _
  have hfold := @List.Perm.foldl_eq' (ℕ → RgbPixel) (ℕ × ℕ)
    (fun r p => Function.update r (p.1 * w + p.2)
      (smoothPixel bmp w h radius p.1 p.2))
    l (writeIndices w h) hl hcomm res
  have h1 : runWrites bmp w h radius l res pos =
      runWrites bmp w h radius (writeIndices w h) res pos := congrFun hfold pos
  rw [h1, runWrites_writeIndices]

/-- Applying the kernel to a destination that already received one
application changes nothing: positions inside the image are recomputed to
the same values, positions outside are never written. -/
theorem process_idem (bmp : ℕ → RgbPixel) (w h radius : ℕ)
    (d : ℕ → RgbPixel) (pos : ℕ) :
    processImageSmoothFilter bmp w h radius
        (processImageSmoothFilter bmp w h radius d) pos =
      processImageSmoothFilter bmp w h radius d pos := by
  by_cases hpos : pos < h * w
  · rw [processImageSmoothFilter_def, if_pos hpos,
      processImageSmoothFilter_def bmp w h radius d pos, if_pos hpos]
  · rw [processImageSmoothFilter_def, if_neg hpos]

/-- C5: the kernel is deterministic under parallel partitioning — any two
serializations of the loop's destination writes (any permutations of the
row-major order; a partition of rows across 1 or N workers executes some
such permutation, as the writes of distinct iterations target distinct
indices) yield identical destination contents, namely the direct
per-position function of `(source, width, height, radius)`. -/
theorem smooth_schedule_independent (bmp : ℕ → RgbPixel) (w h radius : ℕ)
    (l₁ l₂ : List (ℕ × ℕ)) (hl₁ : l₁.Perm (writeIndices w h))
    (hl₂ : l₂.Perm (writeIndices w h)) (res : ℕ → RgbPixel) (pos : ℕ) :
    runWrites bmp w h radius l₁ res pos = runWrites bmp w h radius l₂ res pos ∧
      runWrites bmp w h radius l₁ res pos =
        processImageSmoothFilter bmp w h radius res pos := by
  rw [runWrites_perm bmp w h radius l₁ hl₁ res pos,
    runWrites_perm bmp w h radius l₂ hl₂ res pos]
  exact ⟨rfl, rfl⟩

/-- Witness for C5: on the 3×3 border-shrink image, executing the nine
writes in reversed order gives the same buffer contents at position 0 as
the program order. -/
theorem smooth_schedule_independent_witness :
    runWrites cornerImage 3 3 1 ((writeIndices 3 3).reverse) destA 0 =
      runWrites cornerImage 3 3 1 (writeIndices 3 3) destA 0 :=
  (smooth_schedule_independent cornerImage 3 3 1
      ((writeIndices 3 3).reverse) (writeIndices 3 3)
      (List.reverse_perm _) (List.Perm.refl _) destA 0).1

/-- C10: the loop writes exactly the destination indices `0 … h*w-1`, in a
duplicate-free enumeration, so the result does not depend on the
destination's initial contents, and iterating the kernel `n ≥ 1` times
into the same destination buffer (as the driver's 100-iteration benchmark
loop does) leaves exactly the single-invocation result. -/
theorem smooth_writes_once_dest_independent (bmp : ℕ → RgbPixel)
    (w h radius : ℕ) :
    ((writeIndices w h).map (fun p => p.1 * w + p.2) = List.range (h * w) ∧
      ((writeIndices w h).map (fun p => p.1 * w + p.2)).Nodup) ∧
    (∀ d₁ d₂ : ℕ → RgbPixel, ∀ pos, pos < h * w →
      processImageSmoothFilter bmp w h radius d₁ pos =
        processImageSmoothFilter bmp w h radius d₂ pos) ∧
    (∀ n : ℕ, 0 < n → ∀ d : ℕ → RgbPixel, ∀ pos,
      (fun d => processImageSmoothFilter bmp w h radius d)^[n] d pos =
        processImageSmoothFilter bmp w h radius d pos) := by
  refine ⟨⟨keys_writeIndices w h, ?_⟩, ?_, ?_⟩
  · rw [keys_writeIndices]
    exact List.nodup_range _
  · intro d₁ d₂ pos hpos
    rw [processImageSmoothFilter_def, if_pos hpos,
      processImageSmoothFilter_def, if_pos hpos]
  · intro n hn
    induction n with
    | zero => omega
    | succ m ih =>
      intro d pos
      rcases Nat.eq_zero_or_pos m with rfl | hm
      · rfl
      · rw [Function.iterate_succ_apply, ih hm, process_idem]

/-- Witness for C10 on a 2×2 image: the write positions are `[0,1,2,3]`
without duplicates, position 0 is independent of two different initial
destinations, and 100 kernel iterations (the driver's loop count) equal
one. -/
theorem smooth_writes_once_dest_independent_witness :
    ((writeIndices 2 2).map (fun p => p.1 * 2 + p.2) = List.range (2 * 2) ∧
      ((writeIndices 2 2).map (fun p => p.1 * 2 + p.2)).Nodup) ∧
    processImageSmoothFilter cornerImage 2 2 1 destA 0 =
      processImageSmoothFilter cornerImage 2 2 1 destB 0 ∧
    (fun d => processImageSmoothFilter cornerImage 2 2 1 d)^[100] destA 3 =
      processImageSmoothFilter cornerImage 2 2 1 destA 3 :=
  ⟨(smooth_writes_once_dest_independent cornerImage 2 2 1).1,
    (smooth_writes_once_dest_independent cornerImage 2 2 1).2.1 destA destB 0
      (by decide),
    (smooth_writes_once_dest_independent cornerImage 2 2 1).2.2 100
      (by decide) destA 3⟩

/-! ## Codec lemmas -/

theorem length_pixelsOfBytes (l : List ℕ) :
    (pixelsOfBytes l).length = l.length / 3 := by
  induction l using pixelsOfBytes.induct with
  | case1 b g r rest ih =>
    rw [show pixelsOfBytes (b :: g :: r :: rest) =
        ⟨b, g, r⟩ :: pixelsOfBytes rest from rfl]
    simp only [List.length_cons, ih]
    omega
  | case2 l hl =>
    cases l with
    | nil => simp [pixelsOfBytes]
    | cons a t =>
      cases t with
      | nil => simp [pixelsOfBytes]
      | cons b t2 =>
        cases t2 with
        | nil => simp [pixelsOfBytes]
        | cons c t3 => exact absurd rfl (hl a b c t3)

theorem bytesOfPixels_pixelsOfBytes (l : List ℕ) (hl : l.length % 3 = 0) :
    bytesOfPixels (pixelsOfBytes l) = l := by
  induction l using pixelsOfBytes.induct with
  | case1 b g r rest ih =>
    rw [show pixelsOfBytes (b :: g :: r :: rest) =
        ⟨b, g, r⟩ :: pixelsOfBytes rest from rfl,
      show bytesOfPixels (⟨b, g, r⟩ :: pixelsOfBytes rest) =
        b :: g :: r :: bytesOfPixels (pixelsOfBytes rest) from rfl,
      ih (by simp only [List.length_cons] at hl ⊢; omega)]
  | case2 l hl2 =>
    cases l with
    | nil => simp [pixelsOfBytes, bytesOfPixels]
    | cons a t =>
      cases t with
      | nil => simp at hl
      | cons b t2 =>
        cases t2 with
        | nil => simp at hl
        | cons c t3 => exact absurd rfl (hl2 a b c t3)

theorem readBmp_header (file : List ℕ) (bmp0 : Option (List RgbPixel)) :
    (readBmp file bmp0).header = file.take BMP_HEADER_SIZE := by
  unfold readBmp
  split
  · split <;> rfl
  · rfl

theorem readBmp_ok_length (file : List ℕ) (bmp0 : Option (List RgbPixel))
    (hok : (readBmp file bmp0).ok = true) :
    BMP_HEADER_SIZE ≤ file.length := by
  by_contra hlen
  unfold readBmp at hok
  rw [if_neg hlen] at hok
  exact Bool.false_ne_true hok

/-- C4: decoding a well-formed file — a 54-byte header followed by exactly
`width * height` 3-byte blue-green-red records — succeeds, and immediately
encoding the resulting header and pixel buffer reproduces the file
byte-for-byte. -/
theorem decode_encode_roundtrip (file : List ℕ)
    (hwf : file.length = BMP_HEADER_SIZE + PIXEL_REAL_SIZE *
      (getWidth (file.take BMP_HEADER_SIZE) *
        getHeight (file.take BMP_HEADER_SIZE))) :
    (readBmp file none).ok = true ∧
      writeBmp (readBmp file none).header ((readBmp file none).bmp.getD []) =
        file := by
  have h54 : (BMP_HEADER_SIZE : ℕ) = 54 := rfl
  have h3 : (PIXEL_REAL_SIZE : ℕ) = 3 := rfl
  set size := getWidth (file.take BMP_HEADER_SIZE) *
    getHeight (file.take BMP_HEADER_SIZE) with hsize
  have hlen54 : BMP_HEADER_SIZE ≤ file.length := by omega
  have hbody : (file.drop BMP_HEADER_SIZE).length = PIXEL_REAL_SIZE * size := by
    rw [List.length_drop]
    omega
  have hread : readBmp file none =
      { ok := true, header := file.take BMP_HEADER_SIZE
        bmp := some (pixelsOfBytes
          ((file.drop BMP_HEADER_SIZE).take (PIXEL_REAL_SIZE * size))) } := by
    unfold readBmp
    rw [if_pos hlen54, if_pos (le_of_eq hbody.symm)]
  have htake : (file.drop BMP_HEADER_SIZE).take (PIXEL_REAL_SIZE * size) =
      file.drop BMP_HEADER_SIZE := by
    rw [← hbody, List.take_length]
  refine ⟨by rw [hread], ?_⟩
  rw [hread]
  show writeBmp (file.take BMP_HEADER_SIZE)
      (pixelsOfBytes ((file.drop BMP_HEADER_SIZE).take (PIXEL_REAL_SIZE * size)))
    = file
  rw [htake]
  unfold writeBmp
  have hhtake : (file.take BMP_HEADER_SIZE).take BMP_HEADER_SIZE =
      file.take BMP_HEADER_SIZE := by
    rw [List.take_take, min_self]
  have hplen : (pixelsOfBytes (file.drop BMP_HEADER_SIZE)).length = size := by
    rw [length_pixelsOfBytes, hbody, h3]
    omega
  have hptake : (pixelsOfBytes (file.drop BMP_HEADER_SIZE)).take
      (getWidth (file.take BMP_HEADER_SIZE) *
        getHeight (file.take BMP_HEADER_SIZE)) =
      pixelsOfBytes (file.drop BMP_HEADER_SIZE) := by
    rw [← hsize, ← hplen, List.take_length]
  rw [hhtake, hptake,
    bytesOfPixels_pixelsOfBytes _ (by rw [hbody, h3]; omega),
    List.take_append_drop]

/-- Witness for C4: a concrete 57-byte file (1×1 header plus one pixel
record) decodes and re-encodes to itself. -/
theorem decode_encode_roundtrip_witness :
    (readBmp tinyFile none).ok = true ∧
      writeBmp (readBmp tinyFile none).header
        ((readBmp tinyFile none).bmp.getD []) = tinyFile :=
  decode_encode_roundtrip tinyFile (by decide)

/-- C8: a file shorter than the 54-byte header makes decode fail (returns
`false`, the format-error result) with the caller's pixel pointer left
exactly as it was — `main` passes null, so nothing is allocated; a file
whose pixel area is short makes decode fail after the partially filled
buffer has been released and the pointer nulled. -/
theorem decode_short_input (file : List ℕ) (bmp0 : Option (List RgbPixel)) :
    (file.length < BMP_HEADER_SIZE →
      (readBmp file bmp0).ok = false ∧ (readBmp file bmp0).bmp = bmp0) ∧
    (BMP_HEADER_SIZE ≤ file.length →
      file.length < BMP_HEADER_SIZE + PIXEL_REAL_SIZE *
        (getWidth (file.take BMP_HEADER_SIZE) *
          getHeight (file.take BMP_HEADER_SIZE)) →
      (readBmp file bmp0).ok = false ∧ (readBmp file bmp0).bmp = none) := by
  constructor
  · intro hshort
    unfold readBmp
    rw [if_neg (by omega)]
    exact ⟨rfl, rfl⟩
  · intro hge hlt
    unfold readBmp
    rw [if_pos hge, if_neg (by rw [List.length_drop]; omega)]
    exact ⟨rfl, rfl⟩

/-- Witness for C8: a 3-byte file fails decode with a null pointer; a
54-byte file announcing a 1×1 image but carrying no pixel bytes fails
decode with the partially filled buffer released. -/
theorem decode_short_input_witness :
    ((readBmp [1, 2, 3] none).ok = false ∧ (readBmp [1, 2, 3] none).bmp = none) ∧
    ((readBmp tinyHeader none).ok = false ∧
      (readBmp tinyHeader none).bmp = none) :=
  ⟨(decode_short_input [1, 2, 3] none).1 (by decide),
    (decode_short_input tinyHeader none).2 (by decide) (by decide)⟩

/-- C7: whenever decode succeeds, the program's output file carries the
input file's 54 header bytes verbatim — including every byte the codec
never interprets — even though the kernel ran (100 times) in between. -/
theorem header_preserved (file : List ℕ) (radius : ℕ) (junk : ℕ → RgbPixel)
    (hok : (readBmp file none).ok = true) :
    ∃ out, mainRun 4 file radius junk = .finished out 0 ∧
      out.take BMP_HEADER_SIZE = file.take BMP_HEADER_SIZE := by
  have hlen : (file.take BMP_HEADER_SIZE).length = BMP_HEADER_SIZE := by
    have h54 := readBmp_ok_length file none hok
    rw [List.length_take]
    omega
  refine ⟨mainOutputFile (readBmp file none).header
      ((readBmp file none).bmp.getD []) radius junk, ?_, ?_⟩
  · unfold mainRun
    rw [if_neg (by omega), if_pos hok]
  · unfold mainOutputFile writeBmp
    rw [readBmp_header, List.take_take, min_self,
      List.take_append_of_le_length (le_of_eq hlen.symm),
      List.take_take, min_self]

/-- Witness for C7 on a concrete run: the 57-byte 1×1 file filtered at
radius 1 keeps its header bytes. -/
theorem header_preserved_witness :
    ∃ out, mainRun 4 tinyFile 1 destA = .finished out 0 ∧
      out.take BMP_HEADER_SIZE = tinyFile.take BMP_HEADER_SIZE :=
  header_preserved tinyFile 1 destA (by decide)

/-- C9: with an argument count other than exactly three positional
arguments (`argc ≠ 4`, counting the program name), `main` prints the
usage message and exits with status 0, not an error code. -/
theorem usage_exits_zero (argc : ℕ) (file : List ℕ) (radius : ℕ)
    (junk : ℕ → RgbPixel) (hargc : argc ≠ 4) :
    mainRun argc file radius junk = .usage usageMessage 0 := by
  unfold mainRun
  rw [if_pos hargc]

/-- Witness for C9: two arguments (argc 3) produce the usage outcome with
exit status 0. -/
theorem usage_exits_zero_witness :
    mainRun 3 tinyFile 1 destA = .usage usageMessage 0 :=
  usage_exits_zero 3 tinyFile 1 destA (by decide)

end SmoothC
